import Mathlib

/-!
Verification of the line-protocol encoder in `src/convert2lineprotocol.cpp`
(MATLAB Interface for InfluxDB).  The C++ routine walks a half-open row range
`[startRow, endRow)` of a columnar dataset and builds one `u16string` of
newline-terminated line-protocol records.  We embed the routine shallowly:
`std::u16string` becomes `List Char`, the MATLAB `ArrayType` dispatch becomes a
`Column` sum type, and the per-row/per-field loops become structural
recursions that mirror the source statement by statement.
-/

/-- Model of `std::u16string`: a list of UTF-16 code units (all text relevant
here lies in the BMP, so `Char` is adequate). -/
abbrev Str := List Char

/-- Code units of a Lean string literal, used to write concrete examples. -/
def strOf (s : String) : Str := s.data

/-- Model of a C++ `double` (also of a `float` widened to `double`, which is
exact): either a finite value, carried as its exact rational (every finite
double is a dyadic rational), or a non-finite value (NaN or ±infinity, exactly
the values on which `std::isfinite` returns false). -/
inductive DVal
  | fin (q : ℚ)
  | nonfinite
deriving DecidableEq

/-- A data column together with its `ArrayType` discriminator.  One
constructor per `case` label of the switches in the source; `otherCol` stands
for every `ArrayType` outside the listed set (the `default:` label).  Integer
entries are carried as their mathematical values (extraction of an
`intN_t`/`uintN_t` from its typed array yields exactly the stored value);
text entries (both `CELL`-of-char-array and `MATLAB_STRING`) are carried as
the UTF-16 text the source reads from them. -/
inductive Column
  | int8 (vals : List Int)
  | int16 (vals : List Int)
  | int32 (vals : List Int)
  | int64 (vals : List Int)
  | uint8 (vals : List Nat)
  | uint16 (vals : List Nat)
  | uint32 (vals : List Nat)
  | uint64 (vals : List Nat)
  | cellCol (vals : List Str)
  | strCol (vals : List Str)
  | dblCol (vals : List DVal)
  | sglCol (vals : List DVal)
  | otherCol
deriving DecidableEq

/-- Decimal digits of a `Nat` (as produced by `std::to_wstring` on an
unsigned integer). -/
def natChars (n : Nat) : Str := (toString n).data

/-- Decimal rendering of an `Int` (as produced by `std::to_wstring` on a
signed integer: minus sign for negatives, then the digits). -/
def intChars (v : Int) : Str := (toString v).data

/-- Correct rounding of `(num * 10^6) / den` to an integer, ties to even:
the rounding `printf`-family conversions apply (glibc output is correctly
rounded and the default floating-point rounding mode is
to-nearest-ties-even).  Computed with plain `Int` arithmetic so that it
evaluates by kernel reduction. -/
def rne6 (num : Int) (den : Nat) : Int :=
  let scaled : Int := num * 1000000
  let f : Int := scaled.fdiv den
  let r2 : Int := 2 * (scaled - f * den)
  if r2 < (den : Int) then f
  else if r2 > (den : Int) then f + 1
  else if f % 2 = 0 then f else f + 1

/-- Left-pad a `Nat`'s digits with zeros to width six (the fractional part of
a `%f` conversion). -/
def zeroPad6 (n : Nat) : Str :=
  List.replicate (6 - (toString n).data.length) '0' ++ (toString n).data

/-- Model of `std::to_wstring` on a `double` of exact value `q`: the C++
standard defines it as the output of the `%f` conversion, i.e. fixed-point
notation with exactly six fractional digits, correctly rounded, the sign
followed by the digits of the magnitude. -/
def wstringOfDouble (q : ℚ) : Str :=
  let sign : Str := if q.num < 0 then ['-'] else []
  let mag : Int := if q.num < 0 then -q.num else q.num
  let m : Nat := (rne6 mag q.den).toNat
  sign ++ natChars (m / 1000000) ++ ['.'] ++ zeroPad6 (m % 1000000)

/-- Text contributed by a tag column at row `i`: the switch at lines 52-70 of
the source.  `CELL` and `MATLAB_STRING` columns contribute the row's text;
every other type hits the empty `default:` branch and contributes nothing.
Out-of-range access is caller error in the source (undefined); `getD`'s
default is never reached under the caller contract. -/
def tagValue : Column → Nat → Str
  | Column.cellCol vals, i => vals.getD i []
  | Column.strCol vals, i => vals.getD i []
  | _, _ => []

/-- Text contributed by a field column at row `i`, plus the `is_nan` flag:
the switch at lines 82-169 of the source.  `temp` is `name + "="`; on the
skip branches (non-finite float, `default:`) the switch appends nothing, so
the contributed text is empty and the flag is set. -/
def fieldPiece (temp : Str) : Column → Nat → Str × Bool
  | Column.int8 vals, i => (temp ++ intChars (vals.getD i 0) ++ ['i'], false)
  | Column.int16 vals, i => (temp ++ intChars (vals.getD i 0) ++ ['i'], false)
  | Column.int32 vals, i => (temp ++ intChars (vals.getD i 0) ++ ['i'], false)
  | Column.int64 vals, i => (temp ++ intChars (vals.getD i 0) ++ ['i'], false)
  | Column.uint8 vals, i => (temp ++ natChars (vals.getD i 0) ++ ['u'], false)
  | Column.uint16 vals, i => (temp ++ natChars (vals.getD i 0) ++ ['u'], false)
  | Column.uint32 vals, i => (temp ++ natChars (vals.getD i 0) ++ ['u'], false)
  | Column.uint64 vals, i => (temp ++ natChars (vals.getD i 0) ++ ['u'], false)
  | Column.cellCol vals, i => (temp ++ ['"'] ++ vals.getD i [] ++ ['"'], false)
  | Column.strCol vals, i => (temp ++ ['"'] ++ vals.getD i [] ++ ['"'], false)
  | Column.dblCol vals, i =>
      match vals.getD i DVal.nonfinite with
      | DVal.fin q => (temp ++ wstringOfDouble q, false)
      | DVal.nonfinite => ([], true)
  | Column.sglCol vals, i =>
      match vals.getD i DVal.nonfinite with
      | DVal.fin q => (temp ++ wstringOfDouble q, false)
      | DVal.nonfinite => ([], true)
  | Column.otherCol, _ => ([], true)

/-- One iteration of the field loop (source lines 76-177) acting on the state
`(rowStr, nanNum, addRow)`.  `isLast` is `it == lastMinusOne`, `nf` is
`fieldNames.end() - fieldNames.begin()`, and the separator bookkeeping at
lines 170-176 is reproduced branch for branch (`pop_back` is `dropLast`). -/
def fieldStep : Str × Nat × Bool → Str → Bool → Column → Nat → Nat → Str × Nat × Bool
  | (rowStr, nanNum, addRow), name, isLast, col, nf, i =>
    let p := fieldPiece (name ++ ['=']) col i
    let nanNum2 := if p.2 then nanNum + 1 else nanNum
    let addRow2 := if p.2 && (nf == nanNum2) then false else addRow
    let rowStr1 := rowStr ++ p.1
    let rowStr2 :=
      if isLast && p.2 then rowStr1.dropLast ++ [' ']
      else if isLast then rowStr1 ++ [' ']
      else if !p.2 then rowStr1 ++ [','] else rowStr1
    (rowStr2, nanNum2, addRow2)

/-- The field loop over the remaining field names.  `idx` is the index into
the tag/field column list (`colIndx - 1` of the source, which starts fields
at `data[tagNames.length + 1]`). -/
def fieldLoop : Str × Nat × Bool → List Str → List Column → Nat → Nat → Nat → Str × Nat × Bool
  | st, [], _, _, _, _ => st
  | st, n :: rest, cols, idx, nf, i =>
      fieldLoop (fieldStep st n rest.isEmpty (cols.getD idx Column.otherCol) nf i)
        rest cols (idx + 1) nf i

/-- Variant of the field loop in which no iteration is the last one: used to
describe the state of the buffer just before the final field's iteration. -/
def fieldLoopNL : Str × Nat × Bool → List Str → List Column → Nat → Nat → Nat → Str × Nat × Bool
  | st, [], _, _, _, _ => st
  | st, n :: rest, cols, idx, nf, i =>
      fieldLoopNL (fieldStep st n false (cols.getD idx Column.otherCol) nf i)
        rest cols (idx + 1) nf i

/-- The tag loop (source lines 48-74): each tag appends `name=`, the tag
value, then a comma, except the last tag which is followed by the single
space separating tags from fields. -/
def tagLoop : Str → List Str → List Column → Nat → Nat → Str
  | rowStr, [], _, _, _ => rowStr
  | rowStr, n :: rest, cols, idx, i =>
      tagLoop
        (rowStr ++ n ++ ['='] ++ tagValue (cols.getD idx Column.otherCol) i
          ++ (if rest.isEmpty then [' '] else [',']))
        rest cols (idx + 1) i

/-- The input dataset of one call: `measurementStr` is `*(measurement.begin())`,
`timeCol` the `int64` entries of `data[0]`, and `cols` the columns
`data[1..]`, which correspond in order to `tagNames` then `fieldNames`. -/
structure Dataset where
  measurementStr : Str
  fieldNames : List Str
  tagNames : List Str
  timeCol : List Int
  cols : List Column

/-- The row buffer after the measurement, the space-or-comma separator
(source lines 42-44: space exactly when `tagNames` is empty) and the tag
loop. -/
def rowInit (ds : Dataset) (i : Nat) : Str :=
  tagLoop (ds.measurementStr ++ (if ds.tagNames.isEmpty then [' '] else [',']))
    ds.tagNames ds.cols 0 i

/-- Full per-row state `(rowStr, nanNum, addRow)` after the field loop for
row `i` (one iteration of the outer loop, lines 37-177). -/
def rowState (ds : Dataset) (i : Nat) : Str × Nat × Bool :=
  fieldLoop (rowInit ds i, 0, true) ds.fieldNames ds.cols
    ds.tagNames.length ds.fieldNames.length i

/-- The `addRow` flag of row `i`: whether the row is appended to the output. -/
def emitsRow (ds : Dataset) (i : Nat) : Bool := (rowState ds i).2.2

/-- What row `i` appends to the output (source lines 179-182): the row
buffer, the decimal timestamp and a newline when `addRow` holds, nothing
otherwise. -/
def rowContribution (ds : Dataset) (i : Nat) : Str :=
  if emitsRow ds i then
    (rowState ds i).1 ++ intChars (ds.timeCol.getD i 0) ++ ['\n']
  else []

/-- The whole conversion: the outer `for (iRow = startRow; iRow < endRow;)`
loop accumulating into `res` (initially empty). -/
def convert2lineprotocol (ds : Dataset) (startRow endRow : Nat) : Str :=
  (List.range' startRow (endRow - startRow)).foldl
    (fun res i => res ++ rowContribution ds i) []

/-- Comma-joining of a list of already-formatted pairs. -/
def joinComma : List Str → Str
  | [] => []
  | [p] => p
  | p :: rest => p ++ [','] ++ joinComma rest

/-- The `name=value` tag pairs of a row, in tag-column order. -/
def tagPairsFrom : List Str → List Column → Nat → Nat → List Str
  | [], _, _, _ => []
  | n :: rest, cols, idx, i =>
      (n ++ ['='] ++ tagValue (cols.getD idx Column.otherCol) i)
        :: tagPairsFrom rest cols (idx + 1) i

/-- The `name=value` field pairs of a row, in field-column order, each
formatted (suffixed or quoted) by the per-type dispatch `fieldPiece`. -/
def fieldPairsFrom : List Str → List Column → Nat → Nat → List Str
  | [], _, _, _ => []
  | n :: rest, cols, idx, i =>
      (fieldPiece (n ++ ['=']) (cols.getD idx Column.otherCol) i).1
        :: fieldPairsFrom rest cols (idx + 1) i

/-- Flat form of the text the tag loop appends. -/
def tagsStr : List Str → List Column → Nat → Nat → Str
  | [], _, _, _ => []
  | n :: rest, cols, idx, i =>
      n ++ ['='] ++ tagValue (cols.getD idx Column.otherCol) i
        ++ (if rest.isEmpty then [' '] else [','])
        ++ tagsStr rest cols (idx + 1) i

/-- A field column whose row-`i` value is successfully formatted: supported
type, and finite when floating point (the condition under which the switch
takes a non-skip branch). -/
def supportedFinite : Column → Nat → Bool
  | Column.dblCol vals, i =>
      match vals.getD i DVal.nonfinite with
      | DVal.fin _ => true
      | DVal.nonfinite => false
  | Column.sglCol vals, i =>
      match vals.getD i DVal.nonfinite with
      | DVal.fin _ => true
      | DVal.nonfinite => false
  | Column.otherCol, _ => false
  | _, _ => true

/-- A field column whose row-`i` value is skipped: non-finite floating point,
or a type outside the supported set. -/
def skippedCol : Column → Nat → Bool
  | Column.dblCol vals, i =>
      match vals.getD i DVal.nonfinite with
      | DVal.fin _ => false
      | DVal.nonfinite => true
  | Column.sglCol vals, i =>
      match vals.getD i DVal.nonfinite with
      | DVal.fin _ => false
      | DVal.nonfinite => true
  | Column.otherCol, _ => true
  | _, _ => false

/-- A column in one of the two supported text representations. -/
def isTextCol : Column → Bool
  | Column.cellCol _ => true
  | Column.strCol _ => true
  | _ => false

/-- State of the row buffer just before the last field's iteration, when the
field list is `ns ++ [n]`. -/
def beforeLast (ds : Dataset) (ns : List Str) (i : Nat) : Str × Nat × Bool :=
  fieldLoopNL (rowInit ds i, 0, true) ns ds.cols
    ds.tagNames.length ds.fieldNames.length i

/-- One-row dataset with a single double field of value `3.5`. -/
def dsDblHalf : Dataset :=
  ⟨strOf ("m"), [strOf ("f")], [], [0], [Column.dblCol [DVal.fin (mkRat 7 2)]]⟩

/-- One-row dataset with a single signed 32-bit field of value `-5`. -/
def dsIntEx : Dataset :=
  ⟨strOf ("m"), [strOf ("f")], [], [0], [Column.int32 [-5]]⟩

/-- One-row dataset with a single unsigned 32-bit field of value `7`. -/
def dsUIntEx : Dataset :=
  ⟨strOf ("m"), [strOf ("f")], [], [0], [Column.uint32 [7]]⟩

/-- One-row dataset with a single text field holding `ok`. -/
def dsTextEx : Dataset :=
  ⟨strOf ("m"), [strOf ("f")], [], [0], [Column.strCol [strOf ("ok")]]⟩

/-- One-row dataset with one tag and two well-formed fields. -/
def dsFull : Dataset :=
  ⟨strOf ("m"), [strOf ("x"), strOf ("y")], [strOf ("t")], [123],
    [Column.strCol [strOf ("a")], Column.int32 [-5], Column.dblCol [DVal.fin (mkRat 2 1)]]⟩

/-- One-row dataset with one tag and two fields that are both skipped (a
non-finite double and an unsupported column type). -/
def dsAllSkip : Dataset :=
  ⟨strOf ("m"), [strOf ("a"), strOf ("b")], [strOf ("t")], [7],
    [Column.strCol [strOf ("v")], Column.dblCol [DVal.nonfinite], Column.otherCol]⟩

/-- One-row dataset whose last field is a non-finite double (exercises the
`pop_back` branch). -/
def dsLastSkip : Dataset :=
  ⟨strOf ("m"), [strOf ("x"), strOf ("y")], [], [9],
    [Column.int32 [1], Column.dblCol [DVal.nonfinite]]⟩

/-! ## Basic characterizations of the per-value dispatch -/

/-- A skipped field column contributes nothing and raises the flag: the two
skip branches of the switch append no text and set `is_nan`. -/
theorem fieldPiece_of_skipped (temp : Str) (col : Column) (i : Nat)
    (h : skippedCol col i = true) : fieldPiece temp col i = ([], true) := by
  cases col
  case dblCol vals =>
    cases hv : vals[i]?.getD DVal.nonfinite
    · simp [skippedCol, hv] at h
    · simp [fieldPiece, hv]
  case sglCol vals =>
    cases hv : vals[i]?.getD DVal.nonfinite
    · simp [skippedCol, hv] at h
    · simp [fieldPiece, hv]
  case otherCol => simp [fieldPiece]
  all_goals simp [skippedCol] at h

/-- A supported, finite field column takes a non-skip branch of the switch. -/
theorem fieldPiece_snd_of_ok (temp : Str) (col : Column) (i : Nat)
    (h : supportedFinite col i = true) : (fieldPiece temp col i).2 = false := by
  cases col
  case dblCol vals =>
    cases hv : vals[i]?.getD DVal.nonfinite
    · simp [fieldPiece, hv]
    · simp [supportedFinite, hv] at h
  case sglCol vals =>
    cases hv : vals[i]?.getD DVal.nonfinite
    · simp [fieldPiece, hv]
    · simp [supportedFinite, hv] at h
  case otherCol => simp [supportedFinite] at h
  all_goals simp [fieldPiece]

/-- Whenever the flag is raised the contributed text is empty. -/
theorem fieldPiece_fst_of_nan (temp : Str) (col : Column) (i : Nat)
    (h : (fieldPiece temp col i).2 = true) : (fieldPiece temp col i).1 = [] := by
  cases col
  case dblCol vals =>
    cases hv : vals[i]?.getD DVal.nonfinite
    · simp [fieldPiece, hv] at h
    · simp [fieldPiece, hv]
  case sglCol vals =>
    cases hv : vals[i]?.getD DVal.nonfinite
    · simp [fieldPiece, hv] at h
    · simp [fieldPiece, hv]
  case otherCol => simp [fieldPiece]
  all_goals simp [fieldPiece] at h

/-- A field iteration on a successfully-formatted value appends the pair and
one separator (space when last, comma otherwise) and leaves the counter and
the flag alone. -/
theorem fieldStep_ok (r : Str) (nan : Nat) (ar : Bool) (n : Str) (isLast : Bool)
    (col : Column) (nf i : Nat)
    (h : (fieldPiece (n ++ ['=']) col i).2 = false) :
    fieldStep (r, nan, ar) n isLast col nf i =
      (r ++ (fieldPiece (n ++ ['=']) col i).1 ++ (if isLast then [' '] else [',']),
        nan, ar) := by
  cases isLast <;> simp [fieldStep, h]

/-- A field iteration on a skipped value appends nothing, bumps the counter,
updates `addRow`, and runs the pop-and-replace step exactly when last. -/
theorem fieldStep_nan (r : Str) (nan : Nat) (ar : Bool) (n : Str) (isLast : Bool)
    (col : Column) (nf i : Nat)
    (h : (fieldPiece (n ++ ['=']) col i).2 = true) :
    fieldStep (r, nan, ar) n isLast col nf i =
      ((if isLast then r.dropLast ++ [' '] else r), nan + 1,
        if nf == nan + 1 then false else ar) := by
  have h1 := fieldPiece_fst_of_nan (n ++ ['=']) col i h
  cases isLast <;> simp [fieldStep, h, h1]

/-! ## Structure of the tag loop -/

/-- The tag loop only appends: its result is the incoming buffer followed by
the flattened tag text. -/
theorem tagLoop_eq (names : List Str) : ∀ (pfx : Str) (cols : List Column) (idx i : Nat),
    tagLoop pfx names cols idx i = pfx ++ tagsStr names cols idx i := by
  induction names with
  | nil => intro pfx cols idx i; simp [tagLoop, tagsStr]
  | cons n rest ih =>
    intro pfx cols idx i
    simp [tagLoop, tagsStr, ih, List.append_assoc]

/-- The tag text of a nonempty tag list is nonempty. -/
theorem tagsStr_ne_nil (n : Str) (rest : List Str) (cols : List Column) (idx i : Nat) :
    tagsStr (n :: rest) cols idx i ≠ [] := by
  simp [tagsStr]

/-- The tag text of a nonempty tag list ends with the comma or space the loop
appended after the most recent tag. -/
theorem tagsStr_ends (names : List Str) : ∀ (cols : List Column) (idx i : Nat), names ≠ [] →
    (tagsStr names cols idx i).getLast? = some ',' ∨
    (tagsStr names cols idx i).getLast? = some ' ' := by
  induction names with
  | nil => intro _ _ _ h; exact absurd rfl h
  | cons n rest ih =>
    intro cols idx i _
    cases rest with
    | nil =>
      right
      simp [tagsStr, ← List.append_assoc, List.getLast?_concat]
    | cons m ms =>
      have hne := tagsStr_ne_nil m ms cols (idx + 1) i
      have := ih cols (idx + 1) i (by simp)
      rw [tagsStr, List.getLast?_append]
      rcases this with h | h
      · left; simp [List.getLast?_append, h]
      · right; simp [List.getLast?_append, h]

/-- The tag text of a nonempty tag list is the comma-join of its `name=value`
pairs followed by the single space before the field list. -/
theorem tagsStr_join (names : List Str) : ∀ (cols : List Column) (idx i : Nat), names ≠ [] →
    tagsStr names cols idx i = joinComma (tagPairsFrom names cols idx i) ++ [' '] := by
  induction names with
  | nil => intro _ _ _ h; exact absurd rfl h
  | cons n rest ih =>
    intro cols idx i _
    cases rest with
    | nil => simp [tagsStr, tagPairsFrom, joinComma]
    | cons m ms =>
      rw [tagsStr, ih cols (idx + 1) i (by simp)]
      simp [tagPairsFrom, joinComma, List.append_assoc]

/-- There are exactly as many tag pairs as tag names. -/
theorem tagPairsFrom_length (names : List Str) : ∀ (cols : List Column) (idx i : Nat),
    (tagPairsFrom names cols idx i).length = names.length := by
  induction names with
  | nil => intro cols idx i; rfl
  | cons n rest ih => intro cols idx i; simp [tagPairsFrom, ih]

/-- There are exactly as many field pairs as field names. -/
theorem fieldPairsFrom_length (names : List Str) : ∀ (cols : List Column) (idx i : Nat),
    (fieldPairsFrom names cols idx i).length = names.length := by
  induction names with
  | nil => intro cols idx i; rfl
  | cons n rest ih => intro cols idx i; simp [fieldPairsFrom, ih]

/-! ## Structure of the field loop -/

/-- Field loop on a nonempty list of all-well-formed fields: it appends the
comma-joined pairs and one trailing space, and touches neither the counter
nor the `addRow` flag. -/
theorem fieldLoop_ok (names : List Str) : ∀ (cols : List Column) (idx nf i : Nat)
    (r : Str) (nan : Nat) (ar : Bool), names ≠ [] →
    (∀ k, k < names.length → supportedFinite (cols.getD (idx + k) Column.otherCol) i = true) →
    fieldLoop (r, nan, ar) names cols idx nf i =
      (r ++ joinComma (fieldPairsFrom names cols idx i) ++ [' '], nan, ar) := by
  induction names with
  | nil => intro _ _ _ _ _ _ _ h _; exact absurd rfl h
  | cons n rest ih =>
    intro cols idx nf i r nan ar _ hok
    have h0 : supportedFinite (cols.getD (idx + 0) Column.otherCol) i = true :=
      hok 0 (by simp)
    rw [Nat.add_zero] at h0
    have hsnd := fieldPiece_snd_of_ok (n ++ ['=']) _ i h0
    cases rest with
    | nil =>
      rw [fieldLoop]
      simp only [List.isEmpty_nil]
      rw [fieldStep_ok _ _ _ _ _ _ _ _ hsnd, fieldLoop]
      simp [fieldPairsFrom, joinComma]
    | cons m ms =>
      have hrest : ∀ k, k < (m :: ms).length →
          supportedFinite (cols.getD (idx + 1 + k) Column.otherCol) i = true := by
        intro k hk
        have := hok (k + 1) (by simpa using Nat.succ_lt_succ hk)
        rwa [show idx + (k + 1) = idx + 1 + k by omega] at this
      rw [fieldLoop]
      simp only [List.isEmpty_cons]
      rw [fieldStep_ok _ _ _ _ _ _ _ _ hsnd,
        ih cols (idx + 1) nf i _ nan ar (by simp) hrest]
      simp [fieldPairsFrom, joinComma, List.append_assoc]

/-- Field loop on an all-skipped list: the counter rises by the number of
fields and the `addRow` flag is cleared exactly when the total `nf` is hit
along the way. -/
theorem fieldLoop_skipped (names : List Str) : ∀ (cols : List Column) (idx nf i : Nat)
    (r : Str) (nan : Nat) (ar : Bool),
    (∀ k, k < names.length → skippedCol (cols.getD (idx + k) Column.otherCol) i = true) →
    (fieldLoop (r, nan, ar) names cols idx nf i).2.1 = nan + names.length ∧
    (fieldLoop (r, nan, ar) names cols idx nf i).2.2 =
      (if nan < nf ∧ nf ≤ nan + names.length then false else ar) := by
  induction names with
  | nil =>
    intro cols idx nf i r nan ar _
    refine ⟨by simp [fieldLoop], ?_⟩
    rw [fieldLoop, if_neg (by simp only [List.length_nil]; omega)]
  | cons n rest ih =>
    intro cols idx nf i r nan ar hall
    have h0 : skippedCol (cols.getD (idx + 0) Column.otherCol) i = true :=
      hall 0 (by simp)
    rw [Nat.add_zero] at h0
    have hnan : (fieldPiece (n ++ ['=']) (cols.getD idx Column.otherCol) i).2 = true := by
      rw [fieldPiece_of_skipped _ _ _ h0]
    have hrest : ∀ k, k < rest.length →
        skippedCol (cols.getD (idx + 1 + k) Column.otherCol) i = true := by
      intro k hk
      have := hall (k + 1) (by simpa using Nat.succ_lt_succ hk)
      rwa [show idx + (k + 1) = idx + 1 + k by omega] at this
    rw [fieldLoop, fieldStep_nan _ _ _ _ _ _ _ _ hnan]
    obtain ⟨ha, hb⟩ := ih cols (idx + 1) nf i
      (if rest.isEmpty then r.dropLast ++ [' '] else r) (nan + 1)
      (if nf == nan + 1 then false else ar) hrest
    refine ⟨by rw [ha]; simp only [List.length_cons]; omega, ?_⟩
    rw [hb]
    simp only [beq_iff_eq, List.length_cons]
    split_ifs <;> first | rfl | omega

/-- Splitting the last field off the loop: the loop on `ns ++ [n]` is the
no-last-iteration loop on `ns` followed by the final iteration on `n`. -/
theorem fieldLoop_snoc (ns : List Str) : ∀ (st : Str × Nat × Bool) (n : Str)
    (cols : List Column) (idx nf i : Nat),
    fieldLoop st (ns ++ [n]) cols idx nf i =
      fieldStep (fieldLoopNL st ns cols idx nf i) n true
        (cols.getD (idx + ns.length) Column.otherCol) nf i := by
  induction ns with
  | nil =>
    intro st n cols idx nf i
    rw [List.nil_append, fieldLoop]
    simp [fieldLoop, fieldLoopNL]
  | cons a as ih =>
    intro st n cols idx nf i
    have hne : (as ++ [n]).isEmpty = false := by cases as <;> rfl
    rw [List.cons_append, fieldLoop, hne, ih, fieldLoopNL,
      show idx + 1 + as.length = idx + (a :: as).length by
        simp only [List.length_cons]; omega]

/-! ## Structure of the outer row loop -/

/-- Folding appends from an arbitrary accumulator flattens. -/
theorem foldl_append_flatten (f : Nat → Str) (l : List Nat) : ∀ (a : Str),
    List.foldl (fun res i => res ++ f i) a l = a ++ (l.map f).flatten := by
  induction l with
  | nil => intro a; simp
  | cons x t ih => intro a; simp [List.foldl, ih]

/-- The output is the in-order concatenation of the per-row contributions
over the ascending row range. -/
theorem convert_flatten (ds : Dataset) (s e : Nat) :
    convert2lineprotocol ds s e =
      ((List.range' s (e - s)).map (rowContribution ds)).flatten := by
  rw [convert2lineprotocol, foldl_append_flatten]
  simp

/-- The output over `[s, e)` splits at any interior point `m`. -/
theorem convert_split (ds : Dataset) (s m e : Nat) (h1 : s ≤ m) (h2 : m ≤ e) :
    convert2lineprotocol ds s e =
      convert2lineprotocol ds s m ++ convert2lineprotocol ds m e := by
  rw [convert_flatten, convert_flatten, convert_flatten]
  have hr := List.range'_append s (m - s) (e - m) 1
  rw [show s + 1 * (m - s) = m by omega, show e - m + (m - s) = e - s by omega] at hr
  rw [← hr, List.map_append, List.flatten_append]

/-- Peeling the first row off a nonempty range. -/
theorem convert_cons (ds : Dataset) (m e : Nat) (h : m < e) :
    convert2lineprotocol ds m e =
      rowContribution ds m ++ convert2lineprotocol ds (m + 1) e := by
  rw [convert_flatten, convert_flatten]
  rw [show e - m = (e - (m + 1)) + 1 by omega, List.range'_succ]
  simp

/-! ## Buffer-shape invariants of the field loop -/

/-- One field iteration keeps the row buffer an extension of the fixed
leading text `pfx`, provided that whenever nothing has been appended past
`pfx` yet, `pfx` itself ends in a space (which the pop-and-replace branch
then reinstates). -/
theorem fieldStep_keeps (pfx r : Str) (nan : Nat) (ar : Bool) (n : Str)
    (isLast : Bool) (col : Column) (nf i : Nat)
    (h : ∃ rest, r = pfx ++ rest ∧ (rest ≠ [] ∨ ∃ q, pfx = q ++ [' '])) :
    ∃ rest, (fieldStep (r, nan, ar) n isLast col nf i).1 = pfx ++ rest ∧
      (rest ≠ [] ∨ ∃ q, pfx = q ++ [' ']) := by
  obtain ⟨rest, hr, hk⟩ := h
  cases hnan : (fieldPiece (n ++ ['=']) col i).2
  · rw [fieldStep_ok _ _ _ _ _ _ _ _ hnan]
    refine ⟨rest ++ (fieldPiece (n ++ ['=']) col i).1 ++ (if isLast then [' '] else [',']),
      by simp [hr, List.append_assoc], Or.inl ?_⟩
    cases isLast <;> simp
  · rw [fieldStep_nan _ _ _ _ _ _ _ _ hnan]
    cases isLast
    · exact ⟨rest, by simpa using hr, hk⟩
    · by_cases hrest : rest = []
      · subst hrest
        rcases hk with hne | ⟨q, hq⟩
        · exact absurd rfl hne
        · refine ⟨[], ?_, Or.inr ⟨q, hq⟩⟩
          simp only [if_true, List.append_nil] at hr ⊢
          rw [hr, hq, List.dropLast_concat]
      · refine ⟨rest.dropLast ++ [' '], ?_, Or.inl (by simp)⟩
        simp only [if_true]
        rw [hr, List.dropLast_append_of_ne_nil _ hrest, List.append_assoc]

/-- The whole field loop keeps the row buffer an extension of `pfx`. -/
theorem fieldLoop_keeps (names : List Str) : ∀ (pfx : Str) (st : Str × Nat × Bool)
    (cols : List Column) (idx nf i : Nat),
    (∃ rest, st.1 = pfx ++ rest ∧ (rest ≠ [] ∨ ∃ q, pfx = q ++ [' '])) →
    ∃ rest, (fieldLoop st names cols idx nf i).1 = pfx ++ rest ∧
      (rest ≠ [] ∨ ∃ q, pfx = q ++ [' ']) := by
  induction names with
  | nil => intro pfx st cols idx nf i h; simpa [fieldLoop] using h
  | cons n rest ih =>
    intro pfx st cols idx nf i h
    obtain ⟨r, nan, ar⟩ := st
    rw [fieldLoop]
    exact ih pfx _ cols (idx + 1) nf i
      (fieldStep_keeps pfx r nan ar n _ _ nf i h)

/-- Any two-sided append with a nonempty right part keeps the right part's
last element. -/
theorem getLast?_append_right (l l2 : List Char) (h : l2 ≠ []) :
    (l ++ l2).getLast? = l2.getLast? := by
  rcases List.eq_nil_or_concat l2 with rfl | ⟨t, b, rfl⟩
  · exact absurd rfl h
  · rw [List.concat_eq_append, ← List.append_assoc, List.getLast?_concat,
      List.getLast?_concat]

/-- The buffer after measurement, separator and tag loop is nonempty and ends
with a separator character (the space before the field list, or — never
actually last here — a comma). -/
theorem rowInit_ends (ds : Dataset) (i : Nat) :
    rowInit ds i ≠ [] ∧
      ((rowInit ds i).getLast? = some ',' ∨ (rowInit ds i).getLast? = some ' ') := by
  rw [rowInit, tagLoop_eq]
  cases htag : ds.tagNames with
  | nil =>
    constructor
    · simp [tagsStr]
    · right
      simp [tagsStr, List.getLast?_concat]
  | cons a t =>
    have hne := tagsStr_ne_nil a t ds.cols 0 i
    have hend := tagsStr_ends (a :: t) ds.cols 0 i (by simp)
    constructor
    · intro hcon
      rw [List.append_eq_nil] at hcon
      exact hne hcon.2
    · rw [getLast?_append_right _ _ hne]
      exact hend

/-- A non-last field iteration keeps the buffer nonempty and ending in a
separator: a kept field appends its pair plus a comma, a skipped field
appends nothing at all. -/
theorem fieldStepNL_ends (r : Str) (nan : Nat) (ar : Bool) (n : Str)
    (col : Column) (nf i : Nat)
    (h1 : r ≠ []) (h2 : r.getLast? = some ',' ∨ r.getLast? = some ' ') :
    (fieldStep (r, nan, ar) n false col nf i).1 ≠ [] ∧
      ((fieldStep (r, nan, ar) n false col nf i).1.getLast? = some ',' ∨
       (fieldStep (r, nan, ar) n false col nf i).1.getLast? = some ' ') := by
  cases hnan : (fieldPiece (n ++ ['=']) col i).2
  · rw [fieldStep_ok _ _ _ _ _ _ _ _ hnan]
    constructor
    · simp
    · left
      simp only [if_neg Bool.false_ne_true, ← List.append_assoc]
      rw [List.getLast?_concat]
  · rw [fieldStep_nan _ _ _ _ _ _ _ _ hnan]
    simpa using ⟨h1, h2⟩

/-- The no-last-iteration field loop keeps the buffer nonempty and ending in
a separator. -/
theorem fieldLoopNL_ends (names : List Str) : ∀ (r : Str) (nan : Nat) (ar : Bool)
    (cols : List Column) (idx nf i : Nat),
    r ≠ [] → (r.getLast? = some ',' ∨ r.getLast? = some ' ') →
    (fieldLoopNL (r, nan, ar) names cols idx nf i).1 ≠ [] ∧
      ((fieldLoopNL (r, nan, ar) names cols idx nf i).1.getLast? = some ',' ∨
       (fieldLoopNL (r, nan, ar) names cols idx nf i).1.getLast? = some ' ') := by
  induction names with
  | nil => intro r nan ar cols idx nf i h1 h2; exact ⟨h1, h2⟩
  | cons n rest ih =>
    intro r nan ar cols idx nf i h1 h2
    rw [fieldLoopNL]
    obtain ⟨g1, g2⟩ := fieldStepNL_ends r nan ar n (cols.getD idx Column.otherCol) nf i h1 h2
    rcases hst : fieldStep (r, nan, ar) n false (cols.getD idx Column.otherCol) nf i
      with ⟨r2, nan2, ar2⟩
    rw [hst] at g1 g2
    exact ih r2 nan2 ar2 cols (idx + 1) nf i g1 g2

/-- A tag column that is in neither text representation contributes no value
text (empty `default:` branch of the tag switch). -/
theorem tagValue_of_not_text (col : Column) (i : Nat)
    (h : isTextCol col = false) : tagValue col i = [] := by
  cases col <;> first | rfl | simp [isTextCol] at h

/-! ## The claims -/

/-- C5: in every row buffer, the character immediately following the
measurement name is a single space when the tag list is empty and a comma
otherwise: the built row always extends `measurement ++ separator`. -/
theorem claim_C5 (ds : Dataset) (i : Nat) :
    ∃ rest, (rowState ds i).1 =
      ds.measurementStr ++ (if ds.tagNames.isEmpty then [' '] else [',']) ++ rest := by
  have h0 : ∃ rest, rowInit ds i =
      (ds.measurementStr ++ (if ds.tagNames.isEmpty then [' '] else [','])) ++ rest ∧
      (rest ≠ [] ∨ ∃ q,
        ds.measurementStr ++ (if ds.tagNames.isEmpty then [' '] else [',']) = q ++ [' ']) := by
    rw [rowInit, tagLoop_eq]
    cases htag : ds.tagNames with
    | nil =>
      refine ⟨[], by simp [tagsStr], Or.inr ⟨ds.measurementStr, by simp⟩⟩
    | cons a t =>
      exact ⟨tagsStr (a :: t) ds.cols 0 i, rfl, Or.inl (tagsStr_ne_nil a t ds.cols 0 i)⟩
  obtain ⟨rest, hr, _⟩ := fieldLoop_keeps ds.fieldNames
    (ds.measurementStr ++ (if ds.tagNames.isEmpty then [' '] else [',']))
    (rowInit ds i, 0, true) ds.cols ds.tagNames.length ds.fieldNames.length i h0
  exact ⟨rest, by rw [rowState]; simpa [List.append_assoc] using hr⟩

/-- C7: the output is the in-order concatenation of the per-row
contributions over the ascending row range `[startRow, endRow)` — rows are
never reordered, the output is the monotone image of the row sequence. -/
theorem claim_C7 (ds : Dataset) (s e : Nat) :
    convert2lineprotocol ds s e =
      ((List.range' s (e - s)).map (rowContribution ds)).flatten :=
  convert_flatten ds s e

/-- C9: a tag column outside the two supported text representations still
contributes its pair skeleton — tag name, equals sign, and trailing
separator — with an empty value; the tag is never skipped. -/
theorem claim_C9 (rowStr n : Str) (rest : List Str) (cols : List Column) (idx i : Nat)
    (h : isTextCol (cols.getD idx Column.otherCol) = false) :
    tagLoop rowStr (n :: rest) cols idx i =
      tagLoop (rowStr ++ n ++ ['='] ++ (if rest.isEmpty then [' '] else [',']))
        rest cols (idx + 1) i := by
  rw [tagLoop, tagValue_of_not_text _ _ h]
  simp

/-- C9 witness: a numeric (int8) tag column at a concrete input. -/
theorem claim_C9_witness :
    isTextCol (([Column.int8 [9]]).getD 0 Column.otherCol) = false ∧
    tagLoop (strOf ("m,")) [strOf ("t")] [Column.int8 [9]] 0 0 =
      tagLoop (strOf ("m,") ++ strOf ("t") ++ ['=']
          ++ (if ([] : List Str).isEmpty then [' '] else [',']))
        [] [Column.int8 [9]] (0 + 1) 0 :=
  ⟨by decide, claim_C9 (strOf ("m,")) (strOf ("t")) [] [Column.int8 [9]] 0 0 (by decide)⟩

/-- C8: the per-field dispatch is total — a field column of unsupported type
behaves exactly like a non-finite float: the loop iteration is identical to
the non-finite-double iteration, the missing-field counter is incremented,
and (when not last) nothing at all is appended to the buffer. -/
theorem claim_C8 (r : Str) (nan : Nat) (ar : Bool) (n : Str) (isLast : Bool)
    (nf i : Nat) (vals : List DVal)
    (hnf : vals.getD i DVal.nonfinite = DVal.nonfinite) :
    fieldStep (r, nan, ar) n isLast Column.otherCol nf i =
      fieldStep (r, nan, ar) n isLast (Column.dblCol vals) nf i ∧
    (fieldStep (r, nan, ar) n isLast Column.otherCol nf i).2.1 = nan + 1 ∧
    (isLast = false → (fieldStep (r, nan, ar) n isLast Column.otherCol nf i).1 = r) := by
  have h2 : fieldPiece (n ++ ['=']) (Column.dblCol vals) i = ([], true) := by
    rw [List.getD_eq_getElem?_getD] at hnf
    simp [fieldPiece, hnf]
  have h1 : (fieldPiece (n ++ ['=']) Column.otherCol i).2 = true := rfl
  refine ⟨?_, ?_, ?_⟩
  · rw [fieldStep_nan _ _ _ _ _ _ _ _ h1, fieldStep_nan _ _ _ _ _ _ _ _ (by rw [h2])]
  · rw [fieldStep_nan _ _ _ _ _ _ _ _ h1]
  · intro hL
    subst hL
    rw [fieldStep_nan _ _ _ _ _ _ _ _ h1]
    simp

/-- C8 witness: an unsupported column beside a non-finite double column at a
concrete loop state. -/
theorem claim_C8_witness :
    ([DVal.nonfinite].getD 0 DVal.nonfinite = DVal.nonfinite) ∧
    fieldStep (strOf ("m "), 0, true) (strOf ("f")) false Column.otherCol 3 0 =
      fieldStep (strOf ("m "), 0, true) (strOf ("f")) false (Column.dblCol [DVal.nonfinite]) 3 0 ∧
    (fieldStep (strOf ("m "), 0, true) (strOf ("f")) false Column.otherCol 3 0).2.1 = 0 + 1 ∧
    (fieldStep (strOf ("m "), 0, true) (strOf ("f")) false Column.otherCol 3 0).1 = strOf ("m ") := by
  have h := claim_C8 (strOf ("m ")) 0 true (strOf ("f")) false 3 0 [DVal.nonfinite] (by decide)
  exact ⟨by decide, h.1, h.2.1, h.2.2 rfl⟩

/-- C4: a skipped field column that is not last appends no separator, so a
skipped field immediately followed by a successfully-formatted field leaves
the formatted pair concatenated directly onto the buffer with no separator
in between. -/
theorem claim_C4 (r : Str) (nan : Nat) (ar : Bool) (n m : Str) (ms : List Str)
    (cols : List Column) (idx nf i : Nat)
    (hskip : skippedCol (cols.getD idx Column.otherCol) i = true)
    (hkeep : supportedFinite (cols.getD (idx + 1) Column.otherCol) i = true) :
    fieldLoop (r, nan, ar) (n :: m :: ms) cols idx nf i =
      fieldLoop
        (r ++ (fieldPiece (m ++ ['=']) (cols.getD (idx + 1) Column.otherCol) i).1
           ++ (if ms.isEmpty then [' '] else [',']),
         nan + 1, if nf == nan + 1 then false else ar)
        ms cols (idx + 2) nf i := by
  have h1 : (fieldPiece (n ++ ['=']) (cols.getD idx Column.otherCol) i).2 = true := by
    rw [fieldPiece_of_skipped _ _ _ hskip]
  have h2 := fieldPiece_snd_of_ok (m ++ ['=']) _ i hkeep
  rw [fieldLoop]
  simp only [List.isEmpty_cons]
  rw [fieldStep_nan _ _ _ _ _ _ _ _ h1]
  simp only [Bool.false_eq_true, if_false]
  rw [fieldLoop, fieldStep_ok _ _ _ _ _ _ _ _ h2]

/-- C4 witness: an unsupported first field directly followed by an int32
field at a concrete loop state. -/
theorem claim_C4_witness :
    skippedCol (([Column.otherCol, Column.int32 [3]]).getD 0 Column.otherCol) 0 = true ∧
    supportedFinite (([Column.otherCol, Column.int32 [3]]).getD (0 + 1) Column.otherCol) 0 = true ∧
    fieldLoop (strOf ("m "), 0, true) [strOf ("a"), strOf ("b")]
        [Column.otherCol, Column.int32 [3]] 0 2 0 =
      fieldLoop
        (strOf ("m ")
            ++ (fieldPiece (strOf ("b") ++ ['='])
                 (([Column.otherCol, Column.int32 [3]]).getD (0 + 1) Column.otherCol) 0).1
            ++ (if ([] : List Str).isEmpty then [' '] else [',']),
         0 + 1, if 2 == 0 + 1 then false else true)
        [] [Column.otherCol, Column.int32 [3]] (0 + 2) 2 0 :=
  ⟨by decide, by decide,
    claim_C4 (strOf ("m ")) 0 true (strOf ("a")) (strOf ("b")) []
      [Column.otherCol, Column.int32 [3]] 0 2 0 (by decide) (by decide)⟩

/-- C1: a row whose fields all have supported types and finite values yields
exactly one output line — measurement, the comma-joined tag pairs (with a
comma after the measurement exactly when tags exist, else a space), a space,
the comma-joined field pairs in field-column order, a space, and the
timestamp — with exactly one pair per tag name and per field name. -/
theorem claim_C1 (ds : Dataset) (i : Nat)
    (hne : ds.fieldNames ≠ [])
    (hok : ∀ k, k < ds.fieldNames.length →
      supportedFinite (ds.cols.getD (ds.tagNames.length + k) Column.otherCol) i = true) :
    rowContribution ds i =
      ds.measurementStr
        ++ (if ds.tagNames.isEmpty then [' ']
            else [','] ++ joinComma (tagPairsFrom ds.tagNames ds.cols 0 i) ++ [' '])
        ++ joinComma (fieldPairsFrom ds.fieldNames ds.cols ds.tagNames.length i)
        ++ [' '] ++ intChars (ds.timeCol.getD i 0) ++ ['\n'] ∧
    (tagPairsFrom ds.tagNames ds.cols 0 i).length = ds.tagNames.length ∧
    (fieldPairsFrom ds.fieldNames ds.cols ds.tagNames.length i).length =
      ds.fieldNames.length := by
  refine ⟨?_, tagPairsFrom_length _ _ _ _, fieldPairsFrom_length _ _ _ _⟩
  have hloop := fieldLoop_ok ds.fieldNames ds.cols ds.tagNames.length
    ds.fieldNames.length i (rowInit ds i) 0 true hne hok
  have hstate : rowState ds i =
      (rowInit ds i
        ++ joinComma (fieldPairsFrom ds.fieldNames ds.cols ds.tagNames.length i)
        ++ [' '], 0, true) := by
    rw [rowState, hloop]
  rw [rowContribution, emitsRow, hstate]
  simp only [if_true]
  rw [rowInit, tagLoop_eq]
  cases htag : ds.tagNames with
  | nil => simp [tagsStr]
  | cons a t =>
    rw [tagsStr_join (a :: t) ds.cols 0 i (by simp)]
    simp [List.append_assoc]

/-- C1 witness: one tag and two well-formed fields at a concrete input. -/
theorem claim_C1_witness :
    dsFull.fieldNames ≠ [] ∧
    (∀ k, k < dsFull.fieldNames.length →
      supportedFinite (dsFull.cols.getD (dsFull.tagNames.length + k) Column.otherCol) 0 = true) ∧
    rowContribution dsFull 0 = strOf ("m,t=a x=-5i,y=2.000000 123\n") :=
  ⟨by decide, by decide,
    ((claim_C1 dsFull 0 (by decide) (by decide)).1).trans (by decide)⟩

/-- C3: a row in range all of whose fields are skipped contributes nothing
at all to the output — not even the measurement/tag text already built — and
the output has strictly fewer lines than the range has rows. -/
theorem claim_C3 (ds : Dataset) (i s e : Nat)
    (hne : ds.fieldNames ≠ [])
    (hall : ∀ k, k < ds.fieldNames.length →
      skippedCol (ds.cols.getD (ds.tagNames.length + k) Column.otherCol) i = true)
    (hs : s ≤ i) (he : i < e) :
    rowContribution ds i = [] ∧
    emitsRow ds i = false ∧
    convert2lineprotocol ds s e =
      convert2lineprotocol ds s i ++ convert2lineprotocol ds (i + 1) e ∧
    ((List.range' s (e - s)).filter (fun r => emitsRow ds r)).length < e - s := by
  have hskip := fieldLoop_skipped ds.fieldNames ds.cols ds.tagNames.length
    ds.fieldNames.length i (rowInit ds i) 0 true hall
  have hpos : 0 < ds.fieldNames.length := List.length_pos.mpr hne
  have hemits : emitsRow ds i = false := by
    rw [emitsRow, rowState, hskip.2, if_pos (by omega)]
  have hcontrib : rowContribution ds i = [] := by
    rw [rowContribution, hemits]
    simp
  refine ⟨hcontrib, hemits, ?_, ?_⟩
  · rw [convert_split ds s i e hs (by omega), convert_cons ds i e he, hcontrib,
      List.nil_append]
  · have hmem : i ∈ List.range' s (e - s) := by
      rw [List.mem_range'_1]
      omega
    calc ((List.range' s (e - s)).filter (fun r => emitsRow ds r)).length
        < (List.range' s (e - s)).length := by
          rw [List.length_filter_lt_length_iff_exists]
          exact ⟨i, hmem, by simp [hemits]⟩
      _ = e - s := List.length_range' s 1 (e - s)

/-- C3 witness: both fields of the concrete dataset are skipped, the single
row is suppressed entirely. -/
theorem claim_C3_witness :
    dsAllSkip.fieldNames ≠ [] ∧
    (∀ k, k < dsAllSkip.fieldNames.length →
      skippedCol (dsAllSkip.cols.getD (dsAllSkip.tagNames.length + k) Column.otherCol) 0 = true) ∧
    (rowContribution dsAllSkip 0 = [] ∧
     emitsRow dsAllSkip 0 = false ∧
     convert2lineprotocol dsAllSkip 0 1 =
       convert2lineprotocol dsAllSkip 0 0 ++ convert2lineprotocol dsAllSkip 1 1 ∧
     ((List.range' 0 (1 - 0)).filter (fun r => emitsRow dsAllSkip r)).length < 1 - 0) :=
  ⟨by decide, by decide,
    claim_C3 dsAllSkip 0 0 1 (by decide) (by decide) (by decide) (by decide)⟩

/-- C6: when the last field column is skipped, the built row is exactly the
buffer as it stood before the last field's iteration with its final
character removed and a single trailing space put in its place. -/
theorem claim_C6 (ds : Dataset) (i : Nat) (ns : List Str) (n : Str)
    (h : ds.fieldNames = ns ++ [n])
    (hskip : skippedCol (ds.cols.getD (ds.tagNames.length + ns.length) Column.otherCol) i
      = true) :
    (rowState ds i).1 = ((beforeLast ds ns i).1).dropLast ++ [' '] := by
  have h1 : (fieldPiece (n ++ ['='])
      (ds.cols.getD (ds.tagNames.length + ns.length) Column.otherCol) i).2 = true := by
    rw [fieldPiece_of_skipped _ _ _ hskip]
  rw [rowState, h, fieldLoop_snoc, ← h]
  simp only [beforeLast]
  rcases hbl : fieldLoopNL (rowInit ds i, 0, true) ns ds.cols ds.tagNames.length
    ds.fieldNames.length i with ⟨r2, nan2, ar2⟩
  rw [fieldStep_nan _ _ _ _ _ _ _ _ h1]
  simp

/-- C6 witness: the concrete dataset whose second (last) field is a
non-finite double. -/
theorem claim_C6_witness :
    dsLastSkip.fieldNames = [strOf ("x")] ++ [strOf ("y")] ∧
    skippedCol (dsLastSkip.cols.getD
      (dsLastSkip.tagNames.length + ([strOf ("x")] : List Str).length) Column.otherCol) 0
      = true ∧
    (rowState dsLastSkip 0).1 = ((beforeLast dsLastSkip [strOf ("x")] 0).1).dropLast ++ [' '] :=
  ⟨by decide, by decide,
    claim_C6 dsLastSkip 0 [strOf ("x")] (strOf ("y")) (by decide) (by decide)⟩

/-- C10: when the pop-and-replace branch runs (last field skipped), the
buffer it pops from is nonempty, its final character is always a separator
(a comma, or the space before the field list), and the emitted row keeps
every character before that separator intact. -/
theorem claim_C10 (ds : Dataset) (i : Nat) (ns : List Str) (n : Str)
    (h : ds.fieldNames = ns ++ [n])
    (hskip : skippedCol (ds.cols.getD (ds.tagNames.length + ns.length) Column.otherCol) i
      = true) :
    (beforeLast ds ns i).1 ≠ [] ∧
    ((beforeLast ds ns i).1.getLast? = some ',' ∨
     (beforeLast ds ns i).1.getLast? = some ' ') ∧
    ∀ q c, (beforeLast ds ns i).1 = q ++ [c] → (rowState ds i).1 = q ++ [' '] := by
  obtain ⟨e1, e2⟩ := rowInit_ends ds i
  have hends := fieldLoopNL_ends ns (rowInit ds i) 0 true ds.cols ds.tagNames.length
    ds.fieldNames.length i e1 e2
  refine ⟨by simpa only [beforeLast] using hends.1,
    by simpa only [beforeLast] using hends.2, ?_⟩
  intro q c hqc
  have h1 : (fieldPiece (n ++ ['='])
      (ds.cols.getD (ds.tagNames.length + ns.length) Column.otherCol) i).2 = true := by
    rw [fieldPiece_of_skipped _ _ _ hskip]
  rw [rowState, h, fieldLoop_snoc, ← h]
  simp only [beforeLast] at hqc
  rcases hbl : fieldLoopNL (rowInit ds i, 0, true) ns ds.cols ds.tagNames.length
    ds.fieldNames.length i with ⟨r2, nan2, ar2⟩
  rw [hbl] at hqc
  rw [fieldStep_nan _ _ _ _ _ _ _ _ h1]
  simp only at hqc
  simp [hqc, List.dropLast_concat]

/-- C10 witness: the concrete last-field-skipped dataset; the popped
character is the bookkeeping comma after `x=1i` and the data before it is
kept verbatim. -/
theorem claim_C10_witness :
    (beforeLast dsLastSkip [strOf ("x")] 0).1 ≠ [] ∧
    ((beforeLast dsLastSkip [strOf ("x")] 0).1.getLast? = some ',' ∨
     (beforeLast dsLastSkip [strOf ("x")] 0).1.getLast? = some ' ') ∧
    (rowState dsLastSkip 0).1 = strOf ("m x=1i") ++ [' '] := by
  have h := claim_C10 dsLastSkip 0 [strOf ("x")] (strOf ("y")) (by decide) (by decide)
  exact ⟨h.1, h.2.1, h.2.2 (strOf ("m x=1i")) ',' (by decide)⟩

/-- C2 counterexample: a finite double field of value `3.5` does NOT render
as `field=3.5`.  `std::to_wstring` on a `double` is the `%f` conversion with
six fractional digits, so the emitted line for the one-field dataset is
`m f=3.500000 0`, not `m f=3.5 0`. -/
theorem claim_C2_counterexample :
    convert2lineprotocol dsDblHalf 0 1 = strOf ("m f=3.500000 0\n") ∧
    convert2lineprotocol dsDblHalf 0 1 ≠ strOf ("m f=3.5 0\n") := by
  constructor
  · decide
  · decide

/-- C2 amended: a signed 32-bit field of value `-5` renders as `field=-5i`,
an unsigned field of value `7` as `field=7u`, a text field `ok` as
`field="ok"`, and a finite double field of value `3.5` as `field=3.500000`
(the fixed six-fractional-digit rendering of `std::to_wstring`), unsuffixed
and unquoted. -/
theorem claim_C2_amended :
    convert2lineprotocol dsIntEx 0 1 = strOf ("m f=-5i 0\n") ∧
    convert2lineprotocol dsUIntEx 0 1 = strOf ("m f=7u 0\n") ∧
    convert2lineprotocol dsTextEx 0 1 = strOf ("m f=\"ok\" 0\n") ∧
    convert2lineprotocol dsDblHalf 0 1 = strOf ("m f=3.500000 0\n") := by
  refine ⟨?_, ?_, ?_, ?_⟩ <;> decide
